import Mathlib

/-!
Verification development for `location_data/running_stats.py`.

The Python module implements a small in-process accounting helper:
a dict subclass (`StatsCount`) mapping category names to accumulators,
with lazy per-category initialization, two `add` variants
(`Stats`: list of values; `StatsWithSum`: list of `(id, number)` pairs
whose numeric components are summed at report time), and a text report
renderer with two sort orders and a 150-character truncation of each
category summary.

Python strings are modelled as `List Char` (code points; Python string
comparison is code-point lexicographic).  The store is modelled as an
insertion-ordered association list, matching dict iteration order.
Python's stable `sorted` is modelled by a stable insertion sort.
Numbers handed to `StatsWithSum.add` are modelled as exact integers
(`Int`): Python integers are exact and their `str` is plain decimal;
the claims under study only assert exactness for exact inputs.
A possibly-non-numeric Python value is modelled by `PyVal`, and the
`TypeError` raised by `sum` on a non-numeric entry is modelled by
`Option` (`none` = the propagated runtime failure).
-/

namespace RunningStats

/-- Python strings, modelled as their list of code points. -/
abbrev Str : Type := List Char

/-- Model of Python `s.encode('ascii', 'ignore')`: every character whose
code point is outside the 7-bit ASCII range is silently dropped. -/
def asciiIgnore (s : Str) : Str := s.filter (fun ch => decide (ch.toNat < 128))

/-- The decimal digit character for `n < 10`. -/
def digCh (n : Nat) : Char := Char.ofNat (48 + n)

/-- Is this character a decimal digit? -/
def isDig (ch : Char) : Bool := decide (48 ≤ ch.toNat) && decide (ch.toNat ≤ 57)

/-- Decimal digits of `n`, most significant first; `fuel`-driven recursion
on the first argument (any fuel above the digit count gives the same
result). -/
def decStrAux : Nat → Nat → Str
  | 0, _ => []
  | f + 1, n => if n < 10 then [digCh n] else decStrAux f (n / 10) ++ [digCh (n % 10)]

/-- Model of Python `'%i' % n` for a natural number. -/
def decStr (n : Nat) : Str := decStrAux (n + 1) n

/-- Model of Python `str` of an exact integer. -/
def intStr (i : Int) : Str := if i < 0 then '-' :: decStr i.natAbs else decStr i.natAbs

/-- Read a digit string back as a natural number (used to state what
number a rendered report line actually shows). -/
def parseDec (s : Str) : Nat := s.foldl (fun a ch => a * 10 + (ch.toNat - 48)) 0

/-- Longest leading integer token of a string: an optional minus sign
followed by the longest run of digits. -/
def intTok : Str → Str
  | '-' :: t => '-' :: t.takeWhile isDig
  | s => s.takeWhile isDig

/-- Read an integer token back as an integer. -/
def parseInt : Str → Int
  | '-' :: t => -(parseDec t : Int)
  | s => (parseDec s : Int)

/-- The count a rendered summary shows at its start: its longest leading
digit run, read as a number. -/
def shownCount (summary : Str) : Nat := parseDec (summary.takeWhile isDig)

/-- The total a rendered `StatsWithSum` summary shows: skip the leading
count digits and the 7 characters of `' total='`, then read the integer
token that follows. -/
def shownTotal (summary : Str) : Int := parseInt (intTok ((summary.dropWhile isDig).drop 7))

/-- Model of Python `repr` escaping for one character of a string literal. -/
def escCh (ch : Char) : Str :=
  if ch = '\\' then ['\\', '\\'] else if ch = '\'' then ['\\', '\''] else [ch]

/-- Model of Python `repr` of a string: single quotes around the escaped
characters. -/
def pyStrRepr (s : Str) : Str := '\'' :: s.foldr (fun ch r => escCh ch ++ r) [] ++ ['\'']

/-- Model of Python `repr` of a list: `[` + comma-separated element
`repr`s + `]`. -/
def pyListRepr (rep : α → Str) (l : List α) : Str :=
  '[' :: List.intercalate (", ".toList) (l.map rep) ++ [']']

/-! ## The store

`StatsCount` subclasses `dict`; a store is an insertion-ordered mapping
from category name to accumulator (here: the list of recorded values,
`_init_value = []`).  A new key is appended at the end, as in a Python
dict. -/

/-- A store: insertion-ordered association list from category name to its
accumulated list of values. -/
abbrev Store (α : Type) : Type := List (Str × List α)

/-- The category names, in iteration order. -/
def keys (d : Store α) : List Str := d.map Prod.fst

/-- Dict lookup: `self[category]`. -/
def lookupStore : Store α → Str → Option (List α)
  | [], _ => none
  | e :: d, c => if e.1 = c then some e.2 else lookupStore d c

/-- Dict membership test: `category in self`. -/
def containsKey (d : Store α) (c : Str) : Bool := (lookupStore d c).isSome

/-- `StatsCount._init_category`: if the category is absent, bind it to a
fresh independent copy (`copy.deepcopy`) of the empty initial value. -/
def init_category (d : Store α) (c : Str) : Store α :=
  if containsKey d c then d else d ++ [(c, [])]

/-- `self[category].append(value)`: appends to the accumulator of the one
entry whose key matches (keys are unique). -/
def appendValue (d : Store α) (c : Str) (v : α) : Store α :=
  d.map (fun e => if e.1 = c then (e.1, e.2 ++ [v]) else e)

/-- The store update performed by `Stats.add` / `StatsWithSum.add`:
lazy category init followed by an append. -/
def addValue (d : Store α) (c : Str) (v : α) : Store α :=
  appendValue (init_category d c) c v

/-- `Stats.add(category, value)`: updates the store and returns the
ASCII-stripped log string `'%s: %s' % (category, value)`; `strFn` models
Python `str` on the recorded value. -/
def Stats.add (strFn : α → Str) (d : Store α) (c : Str) (v : α) : Store α × Str :=
  (addValue d c v, asciiIgnore (c ++ (": ".toList) ++ strFn v))

/-- The store produced by a sequence of `add` calls on a freshly
constructed (empty) store. -/
def runAdds (calls : List (Str × α)) : Store α :=
  calls.foldl (fun d cv => addValue d cv.1 cv.2) []

/-- The values of the `add` calls made with exactly category `c`,
in call order. -/
def valuesOf (calls : List (Str × α)) (c : Str) : List α :=
  (calls.filter (fun cv => decide (cv.1 = c))).map Prod.snd

/-- The number of `add` calls made with exactly category `c`. -/
def countOf (calls : List (Str × α)) (c : Str) : Nat :=
  (calls.filter (fun cv => decide (cv.1 = c))).length

/-! ## Summaries and the report renderer -/

/-- `StatsCount.report_value_limit`. -/
def report_value_limit : Nat := 150

/-- The truncation applied to every category summary: if it exceeds the
150-character limit, keep the first 150 characters and append `'...'`. -/
def truncateSummary (s : Str) : Str :=
  if report_value_limit < s.length then s.take report_value_limit ++ ("...".toList) else s

/-- `Stats.report_value` on a category's stored value list: the summary
string `'%i %r' % (len(value), value)` (truncated) and the count used as
sort key; `rep` models Python `repr` on a recorded value. -/
def Stats.report_value (rep : α → Str) (value : List α) : Str × Nat :=
  let number_of_values := value.length
  let value_str := decStr number_of_values ++ ' ' :: pyListRepr rep value
  (truncateSummary value_str, number_of_values)

/-- A report entry: category name, summary string, sort count. -/
abbrev Entry : Type := Str × Str × Nat

/-- The `(category, report_value(category))` pairs, in store iteration
order (the order `report_dict` is filled in). -/
def toEntries (rep : α → Str) (d : Store α) : List Entry :=
  d.map (fun e => (e.1, Stats.report_value rep e.2))

/-- Python string comparison: code-point lexicographic. -/
def strLt : Str → Str → Bool
  | [], [] => false
  | [], _ :: _ => true
  | _ :: _, [] => false
  | a :: as, b :: bs => if a = b then strLt as bs else decide (a.toNat < b.toNat)

/-- Stable insertion of an entry into a list sorted by descending count:
the new entry goes before every existing entry whose count is `≤` its
own (Python's `sorted(..., key=lambda x: -x[1][1])` is stable). -/
def insertByCount (x : Entry) : List Entry → List Entry
  | [] => [x]
  | y :: ys => if x.2.2 < y.2.2 then y :: insertByCount x ys else x :: y :: ys

/-- Stable sort by descending count (model of the default sort mode). -/
def sortByCount (l : List Entry) : List Entry := l.foldr insertByCount []

/-- Stable insertion of an entry into a list sorted by ascending name. -/
def insertByTitle (x : Entry) : List Entry → List Entry
  | [] => [x]
  | y :: ys => if strLt y.1 x.1 then y :: insertByTitle x ys else x :: y :: ys

/-- Stable sort by ascending category name (model of
`sorted(report_dict.items())`; keys are unique, so Python's tuple
comparison never goes past the name). -/
def sortByTitle (l : List Entry) : List Entry := l.foldr insertByTitle []

/-- The sort performed by `StatsCount.report`. -/
def sortEntries (order_by_title : Bool) (l : List Entry) : List Entry :=
  if order_by_title then sortByTitle l else sortByCount l

/-- `indent_str = '\t' * indent`. -/
def indentStr (indent : Nat) : Str := List.replicate indent '\t'

/-- One rendered category line: `indent_str + '%s: %s' % (category, value)`. -/
def renderLine (ind c s : Str) : Str := ind ++ c ++ ':' :: ' ' :: s

/-- The elapsed-time line; `t` stands for the formatted wall-clock
duration (outside the model). -/
def timeLine (ind t : Str) : Str := ind ++ ("Time taken (h:m:s): ".toList) ++ t

/-- The category-area lines of `StatsCount.report`: one line per sorted
entry, replaced by a single `None` line when the store is empty. -/
def categoryLines (rep : α → Str) (d : Store α) (indent : Nat) (order_by_title : Bool) :
    List Str :=
  let ls := (sortEntries order_by_title (toEntries rep d)).map
    (fun e => renderLine (indentStr indent) e.1 e.2.1)
  if d.isEmpty then [indentStr indent ++ ("None".toList)] else ls

/-- All lines of `StatsCount.report`: category area, then the elapsed-time
line when `show_time_taken` is set. -/
def reportLines (rep : α → Str) (d : Store α) (indent : Nat)
    (order_by_title show_time_taken : Bool) (t : Str) : List Str :=
  categoryLines rep d indent order_by_title ++
    (if show_time_taken then [timeLine (indentStr indent) t] else [])

/-- `StatsCount.report` joins the lines with `'\n'`. -/
def report (rep : α → Str) (d : Store α) (indent : Nat)
    (order_by_title show_time_taken : Bool) (t : Str) : Str :=
  List.intercalate ['\n'] (reportLines rep d indent order_by_title show_time_taken t)

/-! ## The Sum variant -/

/-- A dynamically-typed Python value handed to `StatsWithSum.add` as the
number to sum: either an exact integer or a non-numeric object (carrying
its display string). -/
inductive PyVal : Type where
  | num : Int → PyVal
  | obj : Str → PyVal
deriving DecidableEq

/-- Is the value numeric (summable)? -/
def PyVal.isNum : PyVal → Bool
  | .num _ => true
  | .obj _ => false

/-- Model of Python `str` on a `PyVal`. -/
def pyValStr : PyVal → Str
  | .num i => intStr i
  | .obj s => s

/-- Model of Python `repr` on a `PyVal`. -/
def pyValRepr : PyVal → Str
  | .num i => intStr i
  | .obj s => pyStrRepr s

/-- One step of Python `sum`: adding a non-numeric value to the running
total raises (modelled by `none`), and a raised error propagates. -/
def pyAddStep : Option Int → PyVal → Option Int
  | some a, .num i => some (a + i)
  | _, _ => none

/-- Python `sum(...)` over the numeric components: starts from `0`, fails
on the first non-numeric entry. -/
def pySum (l : List PyVal) : Option Int := l.foldl pyAddStep (some 0)

/-- The arithmetic sum of the numeric components (total function used to
state what the reported total should be; non-numeric entries contribute
nothing, but `pySum` fails on them anyway). -/
def PyVal.toIntD : PyVal → Int
  | .num i => i
  | .obj _ => 0

/-- The exact arithmetic sum of a list of numeric components. -/
def sumInts (l : List PyVal) : Int := (l.map PyVal.toIntD).sum

/-- Model of Python `repr` of an `(id, number)` pair. -/
def pairRepr (p : Str × PyVal) : Str :=
  '(' :: pyStrRepr p.1 ++ (", ".toList) ++ pyValRepr p.2 ++ [')']

/-- `StatsWithSum.add(category, id_, float_to_sum)`: updates the store
(an entry is a pair) and returns the ASCII-stripped log string
`'%s: %s %s' % (category, id_, float_to_sum)`. -/
def StatsWithSum.add (d : Store (Str × PyVal)) (c id_ : Str) (v : PyVal) :
    Store (Str × PyVal) × Str :=
  (addValue d c (id_, v), asciiIgnore (c ++ (": ".toList) ++ id_ ++ ' ' :: pyValStr v))

/-- `StatsWithSum.report_value` on a category's stored pair list: fails
(`none`) when the summation raises, otherwise the truncated summary
`'%i total=%s %r' % (len(values), sum, values)` and the count. -/
def StatsWithSum.report_value (values : List (Str × PyVal)) : Option (Str × Nat) :=
  let number_of_values := values.length
  match pySum (values.map Prod.snd) with
  | none => none
  | some sum_of_nums =>
    let value_str := decStr number_of_values ++ (" total=".toList) ++ intStr sum_of_nums
      ++ ' ' :: pyListRepr pairRepr values
    some (truncateSummary value_str, number_of_values)

/-- `Option`-valued map over a list: `none` as soon as one element fails
(the uncaught exception propagates out of the report loop). -/
def mapO (f : α → Option β) : List α → Option (List β)
  | [] => some []
  | a :: l =>
    match f a, mapO f l with
    | some b, some bs => some (b :: bs)
    | _, _ => none

/-- The report entries of the Sum variant; `none` when any category's
summation raises. -/
def sumEntries (d : Store (Str × PyVal)) : Option (List Entry) :=
  mapO (fun e => (StatsWithSum.report_value e.2).map (fun v => (e.1, v))) d

/-- The lines of a Sum-variant report; the summation failure propagates
uncaught to the caller. -/
def sumReportLines (d : Store (Str × PyVal)) (indent : Nat)
    (order_by_title show_time_taken : Bool) (t : Str) : Option (List Str) :=
  (sumEntries d).map (fun es =>
    (if d.isEmpty then [indentStr indent ++ ("None".toList)]
     else (sortEntries order_by_title es).map
       (fun e => renderLine (indentStr indent) e.1 e.2.1)) ++
    (if show_time_taken then [timeLine (indentStr indent) t] else []))

/-! ## Basic store lemmas -/

theorem lookupStore_append (d₁ d₂ : Store α) (c : Str) :
    lookupStore (d₁ ++ d₂) c =
      match lookupStore d₁ c with
      | some vs => some vs
      | none => lookupStore d₂ c := by
  induction d₁ with
  | nil => simp [lookupStore]
  | cons e d ih => by_cases h : e.1 = c <;> simp [lookupStore, h, ih]

theorem appendValue_nil (c : Str) (v : α) : appendValue ([] : Store α) c v = [] := rfl

theorem appendValue_cons (e : Str × List α) (d : Store α) (c : Str) (v : α) :
    appendValue (e :: d) c v =
      (if e.1 = c then (e.1, e.2 ++ [v]) else e) :: appendValue d c v := rfl

theorem containsKey_iff_mem_keys (d : Store α) (c : Str) :
    containsKey d c = true ↔ c ∈ keys d := by
  induction d with
  | nil => simp [containsKey, lookupStore, keys]
  | cons e d ih =>
    constructor
    · intro hc
      by_cases h : e.1 = c
      · simp only [keys, List.map_cons, List.mem_cons]
        exact Or.inl h.symm
      · have hd : containsKey d c = true := by
          simpa [containsKey, lookupStore, h] using hc
        simp only [keys, List.map_cons, List.mem_cons]
        exact Or.inr (show c ∈ List.map Prod.fst d from ih.mp hd)
    · intro hm
      simp only [keys, List.map_cons, List.mem_cons] at hm
      rcases hm with h | h
      · simp [containsKey, lookupStore, h.symm]
      · by_cases he : e.1 = c
        · simp [containsKey, lookupStore, he]
        · have := ih.mpr (show c ∈ keys d from h)
          simpa [containsKey, lookupStore, he] using this

theorem lookup_init_self (d : Store α) (c : Str) :
    lookupStore (init_category d c) c = some ((lookupStore d c).getD []) := by
  unfold init_category
  by_cases h : containsKey d c
  · obtain ⟨vs, hvs⟩ := Option.isSome_iff_exists.mp h
    simp [h, hvs]
  · have hn : lookupStore d c = none := Option.not_isSome_iff_eq_none.mp h
    simp [h, lookupStore_append, hn, lookupStore]

theorem lookup_init_ne (d : Store α) (c c' : Str) (h : c' ≠ c) :
    lookupStore (init_category d c) c' = lookupStore d c' := by
  unfold init_category
  split
  · rfl
  · rw [lookupStore_append]
    cases hv : lookupStore d c' with
    | some vs => rfl
    | none => simp [lookupStore, Ne.symm h]

theorem lookup_appendValue_self (d : Store α) (c : Str) (v : α) :
    lookupStore (appendValue d c v) c = (lookupStore d c).map (fun vs => vs ++ [v]) := by
  induction d with
  | nil => rfl
  | cons e d ih =>
    rw [appendValue_cons]
    by_cases h : e.1 = c
    · rw [if_pos h]
      simp [lookupStore, h]
    · rw [if_neg h]
      simp only [lookupStore, if_neg h]
      exact ih

theorem lookup_appendValue_ne (d : Store α) (c c' : Str) (v : α) (h : c' ≠ c) :
    lookupStore (appendValue d c v) c' = lookupStore d c' := by
  induction d with
  | nil => rfl
  | cons e d ih =>
    rw [appendValue_cons]
    by_cases he : e.1 = c <;> by_cases he' : e.1 = c'
    · exact absurd (he'.symm.trans he) h
    · rw [if_pos he]
      simp [lookupStore, he', ih]
    · rw [if_neg he]
      simp [lookupStore, he', ih]
    · rw [if_neg he]
      simp [lookupStore, he', ih]

theorem lookup_addValue_self (d : Store α) (c : Str) (v : α) :
    lookupStore (addValue d c v) c = some ((lookupStore d c).getD [] ++ [v]) := by
  unfold addValue
  rw [lookup_appendValue_self, lookup_init_self]
  rfl

theorem lookup_addValue_ne (d : Store α) (c c' : Str) (v : α) (h : c' ≠ c) :
    lookupStore (addValue d c v) c' = lookupStore d c' := by
  unfold addValue
  rw [lookup_appendValue_ne _ _ _ _ h, lookup_init_ne _ _ _ h]

theorem keys_appendValue (d : Store α) (c : Str) (v : α) :
    keys (appendValue d c v) = keys d := by
  induction d with
  | nil => rfl
  | cons e d ih =>
    by_cases h : e.1 = c <;> simp [appendValue_cons, keys, h] at ih ⊢ <;> exact ih

theorem keys_nodup_addValue (d : Store α) (c : Str) (v : α) (h : (keys d).Nodup) :
    (keys (addValue d c v)).Nodup := by
  unfold addValue
  rw [keys_appendValue]
  unfold init_category
  split
  · exact h
  · next hc =>
    have hmem : c ∉ keys d := fun hm =>
      hc ((containsKey_iff_mem_keys d c).mpr hm)
    have hk : keys (d ++ [(c, [])]) = keys d ++ [c] := by simp [keys]
    rw [hk, List.nodup_append]
    refine ⟨h, List.nodup_singleton c, fun a ha hb => ?_⟩
    rw [List.mem_singleton] at hb
    exact hmem (hb ▸ ha)

theorem runAdds_keys_nodup (calls : List (Str × α)) : (keys (runAdds calls)).Nodup := by
  suffices h : ∀ d : Store α, (keys d).Nodup →
      (keys (calls.foldl (fun d cv => addValue d cv.1 cv.2) d)).Nodup from
    h [] (by simp [keys])
  induction calls with
  | nil => intro d hd; exact hd
  | cons cv tl ih =>
    intro d hd
    exact ih _ (keys_nodup_addValue d cv.1 cv.2 hd)

theorem lookup_foldl_adds (calls : List (Str × α)) (d : Store α) (c : Str) :
    lookupStore (calls.foldl (fun d cv => addValue d cv.1 cv.2) d) c =
      match lookupStore d c with
      | some vs => some (vs ++ valuesOf calls c)
      | none =>
        if (valuesOf calls c).isEmpty then none else some (valuesOf calls c) := by
  induction calls generalizing d with
  | nil =>
    simp only [List.foldl_nil, valuesOf, List.filter_nil, List.map_nil]
    cases lookupStore d c <;> simp
  | cons cv tl ih =>
    rw [List.foldl_cons, ih]
    by_cases h : cv.1 = c
    · have hv : valuesOf (cv :: tl) c = cv.2 :: valuesOf tl c := by
        simp [valuesOf, h]
      rw [hv, h, lookup_addValue_self]
      cases hl : lookupStore d c with
      | none => simp
      | some vs => simp
    · have hv : valuesOf (cv :: tl) c = valuesOf tl c := by
        simp [valuesOf, h]
      rw [hv, lookup_addValue_ne _ _ _ _ (fun hc : c = cv.1 => h hc.symm)]

theorem runAdds_lookup (calls : List (Str × α)) (c : Str) :
    lookupStore (runAdds calls) c =
      if (valuesOf calls c).isEmpty then none else some (valuesOf calls c) := by
  unfold runAdds
  rw [lookup_foldl_adds]
  rfl

theorem lookup_eq_of_mem (d : Store α) (c : Str) (vs : List α)
    (hd : (keys d).Nodup) (h : (c, vs) ∈ d) : lookupStore d c = some vs := by
  induction d with
  | nil => cases h
  | cons e d ih =>
    rcases List.mem_cons.mp h with he | he
    · simp [lookupStore, ← he]
    · by_cases hc : e.1 = c
      · exfalso
        have : c ∈ keys d := by
          subst hc
          exact List.mem_map.mpr ⟨(e.1, vs), he, rfl⟩
        exact (List.nodup_cons.mp hd).1 (hc ▸ this)
      · simpa [lookupStore, hc] using ih (List.nodup_cons.mp hd).2 he

theorem mem_of_lookup_eq (d : Store α) (c : Str) (vs : List α)
    (h : lookupStore d c = some vs) : (c, vs) ∈ d := by
  induction d with
  | nil => cases h
  | cons e d ih =>
    by_cases hc : e.1 = c
    · simp only [lookupStore, if_pos hc, Option.some.injEq] at h
      exact List.mem_cons.mpr (Or.inl (by rw [← hc, ← h]))
    · simp only [lookupStore, if_neg hc] at h
      exact List.mem_cons.mpr (Or.inr (ih h))

/-! ## C2: ASCII-stripped log strings -/

/-- Spec-side statement of the stripping rule: characters outside the
7-bit ASCII range (code points above 127) are dropped, the rest kept. -/
def specStripNonAscii (s : Str) : Str := s.filter (fun ch => decide (ch.toNat ≤ 127))

/-- C2: `Stats.add` returns the string `"<category>: <value>"` and
`StatsWithSum.add` the string `"<category>: <identifier> <numeric_value>"`,
in both cases with every character outside the 7-bit ASCII range silently
dropped (the stripping is exactly a filter keeping code points `≤ 127`);
in particular `add('deleted', 'café')` returns `"deleted: caf"`. -/
theorem c2_add_returns_ascii_log_string :
    (∀ (α : Type) (strFn : α → Str) (d : Store α) (c : Str) (v : α),
      (Stats.add strFn d c v).2 = asciiIgnore (c ++ (": ".toList) ++ strFn v))
    ∧ (∀ (d : Store (Str × PyVal)) (c i : Str) (v : PyVal),
      (StatsWithSum.add d c i v).2 = asciiIgnore (c ++ (": ".toList) ++ i ++ ' ' :: pyValStr v))
    ∧ (∀ s : Str, asciiIgnore s = specStripNonAscii s)
    ∧ (Stats.add (fun v => v) ([] : Store Str) (("deleted").toList) (("café").toList)).2
        = ("deleted: caf").toList := by
  refine ⟨fun α strFn d c v => rfl, fun d c i v => rfl, fun s => ?_, by decide⟩
  unfold asciiIgnore specStripNonAscii
  congr 1
  funext ch
  exact decide_eq_decide.mpr (by omega)

/-! ## C7: the empty-store report -/

/-- C7: on a freshly constructed store with no `add` calls, the report
consists of exactly one category-area line `"<indent>None"` (one tab per
indent level), followed by the elapsed-time line if and only if
`show_time_taken` is set. -/
theorem c7_empty_store_report (α : Type) (rep : α → Str) (indent : Nat)
    (order_by_title show_time_taken : Bool) (t : Str) :
    reportLines rep (runAdds ([] : List (Str × α))) indent order_by_title show_time_taken t
      = (indentStr indent ++ ("None".toList)) ::
        (if show_time_taken then [timeLine (indentStr indent) t] else []) := by
  cases order_by_title <;> cases show_time_taken <;> rfl

/-! ## C10: reporting does not change the reported lines -/

/-- The category-line portion of a report's output (the elapsed-time
line, when present, is the final line). -/
def stripTimeLine (show_time_taken : Bool) (lines : List Str) : List Str :=
  if show_time_taken then lines.dropLast else lines

/-- C10: `report` reads the store but never writes it (in the model it is
a pure function of the store), so any two report calls without
intervening `add` calls produce identical category lines; only the
trailing elapsed-time line can differ between calls. -/
theorem c10_report_lines_stable (α : Type) (rep : α → Str) (d : Store α) (indent : Nat)
    (order_by_title show_time_taken : Bool) (t₁ t₂ : Str) :
    reportLines rep d indent order_by_title show_time_taken t₁
        = categoryLines rep d indent order_by_title ++
          (if show_time_taken then [timeLine (indentStr indent) t₁] else [])
    ∧ stripTimeLine show_time_taken (reportLines rep d indent order_by_title show_time_taken t₁)
        = stripTimeLine show_time_taken
            (reportLines rep d indent order_by_title show_time_taken t₂) := by
  refine ⟨rfl, ?_⟩
  cases show_time_taken
  · rfl
  · simp [stripTimeLine, reportLines]

/-! ## C8: lazy, independent accumulators -/

theorem valuesOf_length (calls : List (Str × α)) (c : Str) :
    (valuesOf calls c).length = countOf calls c := by
  simp [valuesOf, countOf]

/-- C8: after any sequence of `add` calls, a category key exists in the
store if and only if at least one `add` call was made with that category;
a present category's accumulator holds exactly the values added under it
(each category starts from its own fresh empty list), and adding to one
category never changes another category's accumulator. -/
theorem c8_lazy_independent_accumulators (α : Type) (calls : List (Str × α)) (c : Str) :
    (containsKey (runAdds calls) c = true ↔ countOf calls c ≠ 0)
    ∧ (∀ vs : List α, lookupStore (runAdds calls) c = some vs → vs = valuesOf calls c)
    ∧ (∀ (d : Store α) (c' : Str) (v : α), c' ≠ c →
        lookupStore (addValue d c' v) c = lookupStore d c) := by
  refine ⟨?_, ?_, ?_⟩
  · rw [containsKey, runAdds_lookup]
    by_cases he : (valuesOf calls c).isEmpty
    · have h0 : (valuesOf calls c).length = 0 := by
        rw [List.isEmpty_iff.mp he]
        rfl
      rw [valuesOf_length] at h0
      simp [he, h0]
    · have h0 : valuesOf calls c ≠ [] := fun hn => he (by simp [hn])
      have : countOf calls c ≠ 0 := by
        rw [← valuesOf_length]
        simpa using h0
      simp [he, this]
  · intro vs h
    rw [runAdds_lookup] at h
    split at h
    · cases h
    · exact (Option.some.injEq _ _ ▸ h).symm
  · intro d c' v hne
    exact lookup_addValue_ne d c' c v (Ne.symm hne)

/-! ## C6: the truncation rule -/

theorem truncateSummary_length (s : Str) :
    (truncateSummary s).length ≤ report_value_limit + 3 := by
  unfold truncateSummary
  split
  · have h3 : ("...".toList).length = 3 := rfl
    rw [List.length_append, List.length_take, h3]
    omega
  · next h => omega

theorem truncateSummary_of_le (s : Str) (h : s.length ≤ report_value_limit) :
    truncateSummary s = s := by
  unfold truncateSummary
  rw [if_neg (by omega)]

theorem truncateSummary_of_gt (s : Str) (h : report_value_limit < s.length) :
    truncateSummary s = s.take report_value_limit ++ ("...".toList) := by
  unfold truncateSummary
  rw [if_pos h]

/-- C6: in both variants, a category's summary never exceeds the
150-character limit plus the 3-character ellipsis: a built summary within
the limit is kept unchanged, and one exceeding the limit is cut to
exactly the first 150 characters with `'...'` appended. -/
theorem c6_summary_truncation (α : Type) (rep : α → Str) (vs : List α) :
    (Stats.report_value rep vs).1.length ≤ report_value_limit + 3
    ∧ ((decStr vs.length ++ ' ' :: pyListRepr rep vs).length ≤ report_value_limit →
        (Stats.report_value rep vs).1 = decStr vs.length ++ ' ' :: pyListRepr rep vs)
    ∧ (report_value_limit < (decStr vs.length ++ ' ' :: pyListRepr rep vs).length →
        (Stats.report_value rep vs).1 =
          (decStr vs.length ++ ' ' :: pyListRepr rep vs).take report_value_limit
            ++ ("...".toList))
    ∧ ∀ (ws : List (Str × PyVal)) (s : Str) (k : Nat),
        StatsWithSum.report_value ws = some (s, k) → s.length ≤ report_value_limit + 3 := by
  refine ⟨truncateSummary_length _, fun h => truncateSummary_of_le _ h,
    fun h => truncateSummary_of_gt _ h, fun ws s k h => ?_⟩
  unfold StatsWithSum.report_value at h
  cases hs : pySum (ws.map Prod.snd) with
  | none => rw [hs] at h; cases h
  | some t =>
    rw [hs] at h
    simp only [Option.some.injEq, Prod.mk.injEq] at h
    rw [← h.1]
    exact truncateSummary_length _

/-! ## Sorting lemmas (Python's `sorted` is a stable sort) -/

theorem insertByCount_perm (x : Entry) (l : List Entry) :
    List.Perm (insertByCount x l) (x :: l) := by
  induction l with
  | nil => exact List.Perm.refl _
  | cons y ys ih =>
    show List.Perm (if x.2.2 < y.2.2 then y :: insertByCount x ys else x :: y :: ys) (x :: y :: ys)
    split
    · exact (List.Perm.cons y ih).trans (List.Perm.swap x y ys)
    · exact List.Perm.refl _

theorem sortByCount_perm (l : List Entry) : List.Perm (sortByCount l) l := by
  induction l with
  | nil => exact List.Perm.refl _
  | cons x xs ih => exact (insertByCount_perm x (sortByCount xs)).trans (List.Perm.cons x ih)

theorem insertByCount_pairwise (x : Entry) (l : List Entry)
    (h : l.Pairwise (fun a b => b.2.2 ≤ a.2.2)) :
    (insertByCount x l).Pairwise (fun a b => b.2.2 ≤ a.2.2) := by
  induction l with
  | nil => simp [insertByCount]
  | cons y ys ih =>
    have h1 : ∀ b ∈ ys, b.2.2 ≤ y.2.2 := (List.pairwise_cons.mp h).1
    have h2 : ys.Pairwise (fun a b => b.2.2 ≤ a.2.2) := (List.pairwise_cons.mp h).2
    show (if x.2.2 < y.2.2 then y :: insertByCount x ys else x :: y :: ys).Pairwise _
    split
    · next hlt =>
      refine List.pairwise_cons.mpr ⟨?_, ih h2⟩
      intro b hb
      rcases List.mem_cons.mp ((insertByCount_perm x ys).mem_iff.mp hb) with hbx | hby
      · subst hbx
        exact Nat.le_of_lt hlt
      · exact h1 b hby
    · next hnlt =>
      refine List.pairwise_cons.mpr ⟨?_, h⟩
      intro b hb
      rcases List.mem_cons.mp hb with hby | hbys
      · subst hby
        exact Nat.le_of_not_lt hnlt
      · exact Nat.le_trans (h1 b hbys) (Nat.le_of_not_lt hnlt)

theorem sortByCount_pairwise (l : List Entry) :
    (sortByCount l).Pairwise (fun a b => b.2.2 ≤ a.2.2) := by
  induction l with
  | nil => simp [sortByCount]
  | cons x xs ih => exact insertByCount_pairwise x (sortByCount xs) ih

theorem filter_insertByCount (k : Nat) (x : Entry) (l : List Entry) :
    (insertByCount x l).filter (fun e => decide (e.2.2 = k))
      = ((x :: l).filter (fun e => decide (e.2.2 = k))) := by
  induction l with
  | nil => rfl
  | cons y ys ih =>
    show ((if x.2.2 < y.2.2 then y :: insertByCount x ys else x :: y :: ys).filter _) = _
    split
    · next hlt =>
      by_cases hy : y.2.2 = k <;> by_cases hx : x.2.2 = k
      · exact absurd hlt (by omega)
      · simp [List.filter_cons, hy, hx, ih]
      · simp [List.filter_cons, hy, hx, ih]
      · simp [List.filter_cons, hy, hx, ih]
    · rfl

theorem filter_sortByCount (k : Nat) (l : List Entry) :
    (sortByCount l).filter (fun e => decide (e.2.2 = k))
      = l.filter (fun e => decide (e.2.2 = k)) := by
  induction l with
  | nil => rfl
  | cons x xs ih =>
    have : sortByCount (x :: xs) = insertByCount x (sortByCount xs) := rfl
    rw [this, filter_insertByCount]
    by_cases hx : x.2.2 = k <;> simp [List.filter_cons, hx, ih]

/-! ## C4: the default (descending-count) sort -/

/-- A small concrete store used to instantiate hypotheses of the claim
theorems. -/
def sampleStore : Store Str :=
  [(("a").toList, [("x").toList, ("y").toList]), (("b").toList, [("z").toList])]

/-- C4: in the default sort mode (`order_by_title` false), whenever
category `A`'s line precedes category `B`'s line, `A`'s count is at least
`B`'s; entries with equal counts keep their relative order from the store
iteration (stability of the sort). -/
theorem c4_descending_count_sort (α : Type) (rep : α → Str) (d : Store α) :
    (∀ (i j : Nat) (a b : Entry), i < j →
        (sortEntries false (toEntries rep d))[i]? = some a →
        (sortEntries false (toEntries rep d))[j]? = some b →
        b.2.2 ≤ a.2.2)
    ∧ ∀ k : Nat,
        (sortEntries false (toEntries rep d)).filter (fun e => decide (e.2.2 = k))
          = (toEntries rep d).filter (fun e => decide (e.2.2 = k)) := by
  have hs : sortEntries false (toEntries rep d) = sortByCount (toEntries rep d) := rfl
  constructor
  · intro i j a b hij ha hb
    rw [hs] at ha hb
    obtain ⟨hi, hia⟩ := List.getElem?_eq_some.mp ha
    obtain ⟨hj, hjb⟩ := List.getElem?_eq_some.mp hb
    have hp := List.pairwise_iff_getElem.mp (sortByCount_pairwise (toEntries rep d)) i j hi hj hij
    rw [hia, hjb] at hp
    exact hp
  · intro k
    rw [hs]
    exact filter_sortByCount k _

/-! ## C5: the title sort -/

theorem char_toNat_inj (a b : Char) (h : a.toNat = b.toNat) : a = b := by
  rw [← Char.ofNat_toNat a, ← Char.ofNat_toNat b, h]

theorem strLt_asymm : ∀ a b : Str, strLt a b = true → strLt b a = false
  | [], [] => by simp [strLt]
  | [], _ :: _ => fun _ => rfl
  | _ :: _, [] => by simp [strLt]
  | a :: as, b :: bs => by
    intro h
    by_cases hab : a = b
    · subst hab
      simp only [strLt, if_pos rfl] at h ⊢
      exact strLt_asymm as bs h
    · simp only [strLt, if_neg hab, if_neg (Ne.symm hab)] at h ⊢
      simp only [decide_eq_true_eq] at h
      simp only [decide_eq_false_iff_not]
      omega

theorem strLt_eq_of_false_false : ∀ a b : Str, strLt a b = false → strLt b a = false → a = b
  | [], [] => fun _ _ => rfl
  | [], _ :: _ => fun h _ => by simp [strLt] at h
  | _ :: _, [] => fun _ h => by simp [strLt] at h
  | a :: as, b :: bs => by
    intro h1 h2
    by_cases hab : a = b
    · subst hab
      simp only [strLt, if_pos rfl] at h1 h2
      rw [strLt_eq_of_false_false as bs h1 h2]
    · simp only [strLt, if_neg hab, if_neg (Ne.symm hab)] at h1 h2
      simp only [decide_eq_false_iff_not] at h1 h2
      exact absurd (char_toNat_inj a b (by omega)) hab

theorem strLt_neg_trans : ∀ a b c : Str,
    strLt a b = false → strLt b c = false → strLt a c = false
  | [], b, c => fun h1 h2 => by
    cases b with
    | nil => exact h2
    | cons _ _ => simp [strLt] at h1
  | _ :: _, [], c => fun _ h2 => by
    cases c with
    | nil => rfl
    | cons _ _ => simp [strLt] at h2
  | _ :: _, _ :: _, [] => fun _ _ => rfl
  | a :: as, b :: bs, c :: cs => by
    intro h1 h2
    by_cases hab : a = b <;> by_cases hbc : b = c
    · subst hab
      subst hbc
      simp only [strLt, if_pos rfl] at h1 h2 ⊢
      exact strLt_neg_trans as bs cs h1 h2
    · have hac : ¬ a = c := fun h => hbc (hab.symm.trans h)
      simp only [strLt, if_neg hbc] at h2
      simp only [strLt, if_neg hac]
      rw [hab]
      exact h2
    · have hac : ¬ a = c := fun h => hab (h.trans hbc.symm)
      simp only [strLt, if_neg hab] at h1
      simp only [strLt, if_neg hac]
      rw [← hbc]
      exact h1
    · simp only [strLt, if_neg hab] at h1
      simp only [strLt, if_neg hbc] at h2
      simp only [decide_eq_false_iff_not] at h1 h2
      by_cases hac : a = c
      · exfalso
        have hco := congrArg Char.toNat hac
        exact hab (char_toNat_inj a b (by omega))
      · simp only [strLt, if_neg hac, decide_eq_false_iff_not]
        omega

theorem insertByTitle_perm (x : Entry) (l : List Entry) :
    List.Perm (insertByTitle x l) (x :: l) := by
  induction l with
  | nil => exact List.Perm.refl _
  | cons y ys ih =>
    show List.Perm (if strLt y.1 x.1 then y :: insertByTitle x ys else x :: y :: ys)
      (x :: y :: ys)
    split
    · exact (List.Perm.cons y ih).trans (List.Perm.swap x y ys)
    · exact List.Perm.refl _

theorem sortByTitle_perm (l : List Entry) : List.Perm (sortByTitle l) l := by
  induction l with
  | nil => exact List.Perm.refl _
  | cons x xs ih => exact (insertByTitle_perm x (sortByTitle xs)).trans (List.Perm.cons x ih)

theorem insertByTitle_pairwise (x : Entry) (l : List Entry)
    (h : l.Pairwise (fun a b => strLt b.1 a.1 = false)) :
    (insertByTitle x l).Pairwise (fun a b => strLt b.1 a.1 = false) := by
  induction l with
  | nil => simp [insertByTitle]
  | cons y ys ih =>
    have h1 : ∀ b ∈ ys, strLt b.1 y.1 = false := (List.pairwise_cons.mp h).1
    have h2 : ys.Pairwise (fun a b => strLt b.1 a.1 = false) := (List.pairwise_cons.mp h).2
    show (if strLt y.1 x.1 then y :: insertByTitle x ys else x :: y :: ys).Pairwise _
    split
    · next hlt =>
      refine List.pairwise_cons.mpr ⟨?_, ih h2⟩
      intro b hb
      rcases List.mem_cons.mp ((insertByTitle_perm x ys).mem_iff.mp hb) with hbx | hby
      · subst hbx
        exact strLt_asymm _ _ hlt
      · exact h1 b hby
    · next hnlt =>
      refine List.pairwise_cons.mpr ⟨?_, h⟩
      intro b hb
      rcases List.mem_cons.mp hb with hby | hbys
      · subst hby
        exact Bool.eq_false_iff.mpr hnlt
      · exact strLt_neg_trans _ _ _ (h1 b hbys) (Bool.eq_false_iff.mpr hnlt)

theorem sortByTitle_pairwise (l : List Entry) :
    (sortByTitle l).Pairwise (fun a b => strLt b.1 a.1 = false) := by
  induction l with
  | nil => simp [sortByTitle]
  | cons x xs ih => exact insertByTitle_pairwise x (sortByTitle xs) ih

theorem toEntries_names (rep : α → Str) (d : Store α) :
    (toEntries rep d).map (fun e : Entry => e.1) = keys d := by
  induction d with
  | nil => rfl
  | cons e d ih =>
    simp only [toEntries, keys, List.map_cons] at ih ⊢
    rw [ih]

/-- C5: with `order_by_title` set, the category lines of the report of any
sequence of `add` calls appear in strictly increasing lexicographic order
of the category names. -/
theorem c5_title_sort_lexicographic (α : Type) (rep : α → Str) (calls : List (Str × α)) :
    ∀ (i j : Nat) (a b : Entry), i < j →
      (sortEntries true (toEntries rep (runAdds calls)))[i]? = some a →
      (sortEntries true (toEntries rep (runAdds calls)))[j]? = some b →
      strLt a.1 b.1 = true := by
  intro i j a b hij ha hb
  have hs : sortEntries true (toEntries rep (runAdds calls))
      = sortByTitle (toEntries rep (runAdds calls)) := rfl
  rw [hs] at ha hb
  obtain ⟨hi, hia⟩ := List.getElem?_eq_some.mp ha
  obtain ⟨hj, hjb⟩ := List.getElem?_eq_some.mp hb
  have hp := List.pairwise_iff_getElem.mp
    (sortByTitle_pairwise (toEntries rep (runAdds calls))) i j hi hj hij
  rw [hia, hjb] at hp
  have hperm : List.Perm
      ((sortByTitle (toEntries rep (runAdds calls))).map (fun e : Entry => e.1))
      ((toEntries rep (runAdds calls)).map (fun e : Entry => e.1)) :=
    (sortByTitle_perm _).map _
  have hnd : ((sortByTitle (toEntries rep (runAdds calls))).map (fun e : Entry => e.1)).Nodup := by
    rw [hperm.nodup_iff, toEntries_names]
    exact runAdds_keys_nodup calls
  have hne : a.1 ≠ b.1 := by
    intro hEq
    have hilen : i < ((sortByTitle (toEntries rep (runAdds calls))).map
        (fun e : Entry => e.1)).length := by
      simpa using hi
    have hjlen : j < ((sortByTitle (toEntries rep (runAdds calls))).map
        (fun e : Entry => e.1)).length := by
      simpa using hj
    have hmi : ((sortByTitle (toEntries rep (runAdds calls))).map
        (fun e : Entry => e.1))[i] = a.1 := by
      rw [List.getElem_map]
      rw [show (sortByTitle (toEntries rep (runAdds calls)))[i] = a from hia]
    have hmj : ((sortByTitle (toEntries rep (runAdds calls))).map
        (fun e : Entry => e.1))[j] = b.1 := by
      rw [List.getElem_map]
      rw [show (sortByTitle (toEntries rep (runAdds calls)))[j] = b from hjb]
    have := hnd.getElem_inj_iff.mp (hmi.trans (hEq.trans hmj.symm))
    omega
  cases hab : strLt a.1 b.1 with
  | false => exact absurd (strLt_eq_of_false_false _ _ hab hp) hne
  | true => rfl

/-! ## C9: non-numeric values fail at report time, not add time -/

theorem foldl_pyAddStep_none : ∀ l : List PyVal, l.foldl pyAddStep none = none
  | [] => rfl
  | v :: l => by
    rw [List.foldl_cons, show pyAddStep none v = none from by cases v <;> rfl]
    exact foldl_pyAddStep_none l

theorem foldl_pyAddStep_none_of_mem : ∀ (l : List PyVal) (v : PyVal),
    v ∈ l → v.isNum = false → ∀ a : Option Int, l.foldl pyAddStep a = none
  | [], v, hv, _, _ => absurd hv (List.not_mem_nil v)
  | w :: l, v, hv, hn, a => by
    rw [List.foldl_cons]
    rcases List.mem_cons.mp hv with h | h
    · subst h
      cases v with
      | num i => simp [PyVal.isNum] at hn
      | obj s =>
        rw [show pyAddStep a (PyVal.obj s) = none from by cases a <;> rfl]
        exact foldl_pyAddStep_none l
    · exact foldl_pyAddStep_none_of_mem l v h hn _

theorem pySum_none_of_mem (l : List PyVal) (v : PyVal) (hv : v ∈ l) (hn : v.isNum = false) :
    pySum l = none :=
  foldl_pyAddStep_none_of_mem l v hv hn (some 0)

theorem sum_report_value_none (vs : List (Str × PyVal)) (p : Str × PyVal)
    (hp : p ∈ vs) (hn : p.2.isNum = false) : StatsWithSum.report_value vs = none := by
  have h := pySum_none_of_mem (vs.map Prod.snd) p.2 (List.mem_map_of_mem Prod.snd hp) hn
  simp [StatsWithSum.report_value, h]

theorem mapO_eq_none_of_mem (f : α → Option β) (l : List α) (a : α)
    (ha : a ∈ l) (hf : f a = none) : mapO f l = none := by
  induction l with
  | nil => cases ha
  | cons w l ih =>
    rcases List.mem_cons.mp ha with h | h
    · subst h
      show (match f a, mapO f l with
        | some b, some bs => some (b :: bs)
        | _, _ => none) = none
      rw [hf]
    · show (match f w, mapO f l with
        | some b, some bs => some (b :: bs)
        | _, _ => none) = none
      rw [ih h]
      cases f w <;> rfl

theorem mapO_mem_of_some (f : α → Option β) :
    ∀ (l : List α) (es : List β), mapO f l = some es →
      ∀ b ∈ es, ∃ a ∈ l, f a = some b
  | [], es, h => by
    simp only [mapO, Option.some.injEq] at h
    subst h
    intro b hb
    cases hb
  | w :: l, es, h => by
    revert h
    show (match f w, mapO f l with
      | some b, some bs => some (b :: bs)
      | _, _ => none) = some es → _
    cases hw : f w with
    | none => intro h; cases h
    | some bw =>
      cases hl : mapO f l with
      | none => intro h; cases h
      | some bs =>
        intro h b hb
        simp only [Option.some.injEq] at h
        subst h
        rcases List.mem_cons.mp hb with hbe | hbe
        · exact ⟨w, List.mem_cons_self w l, hbe ▸ hw⟩
        · obtain ⟨a, hal, hfa⟩ := mapO_mem_of_some f l bs hl b hbe
          exact ⟨a, List.mem_cons_of_mem w hal, hfa⟩

/-- C9: in the Sum variant, calling `add` with a non-numeric value
succeeds at add time — the pair is appended to the category's
accumulator — while the type/arithmetic failure occurs only later, at the
summation step of `report_value` when a report is generated, and
propagates uncaught out of the whole report. -/
theorem c9_failure_surfaces_at_report_time (d : Store (Str × PyVal)) (c i s : Str) :
    (lookupStore ((StatsWithSum.add d c i (PyVal.obj s)).1) c
        = some ((lookupStore d c).getD [] ++ [(i, PyVal.obj s)]))
    ∧ (∀ vs : List (Str × PyVal), (∃ p ∈ vs, p.2.isNum = false) →
        StatsWithSum.report_value vs = none)
    ∧ (∀ (d' : Store (Str × PyVal)) (vs : List (Str × PyVal)),
        lookupStore d' c = some vs → (∃ p ∈ vs, p.2.isNum = false) →
        ∀ (indent : Nat) (obt st : Bool) (t : Str),
          sumReportLines d' indent obt st t = none) := by
  refine ⟨lookup_addValue_self d c (i, PyVal.obj s), ?_, ?_⟩
  · rintro vs ⟨p, hp, hn⟩
    exact sum_report_value_none vs p hp hn
  · rintro d' vs hlk ⟨p, hp, hn⟩ indent obt st t
    have hent : sumEntries d' = none := by
      apply mapO_eq_none_of_mem _ _ (c, vs) (mem_of_lookup_eq d' c vs hlk)
    -- the entry for category c has a failing report_value
      show (StatsWithSum.report_value vs).map _ = none
      rw [sum_report_value_none vs p hp hn]
      rfl
    simp [sumReportLines, hent]

/-! ## Decimal rendering and reading lemmas (for C1 and C3) -/

theorem toNat_digCh (n : Nat) (h : n < 10) : (digCh n).toNat = 48 + n := by
  interval_cases n <;> decide

theorem isDig_digCh (n : Nat) (h : n < 10) : isDig (digCh n) = true := by
  interval_cases n <;> decide

theorem isDig_decStrAux : ∀ (f n : Nat), ∀ ch ∈ decStrAux f n, isDig ch = true
  | 0, n => by simp [decStrAux]
  | f + 1, n => by
    intro ch hch
    simp only [decStrAux] at hch
    split at hch
    · next h =>
      rw [List.mem_singleton] at hch
      subst hch
      exact isDig_digCh n h
    · next h =>
      rcases List.mem_append.mp hch with h1 | h1
      · exact isDig_decStrAux f (n / 10) ch h1
      · rw [List.mem_singleton] at h1
        subst h1
        exact isDig_digCh _ (Nat.mod_lt n (by omega))

theorem isDig_decStr (n : Nat) : ∀ ch ∈ decStr n, isDig ch = true :=
  isDig_decStrAux (n + 1) n

theorem decStr_ne_nil (n : Nat) : decStr n ≠ [] := by
  unfold decStr decStrAux
  split
  · simp
  · simp

theorem foldl_parse_gen : ∀ (l : Str) (a : Nat),
    l.foldl (fun a ch => a * 10 + (ch.toNat - 48)) a = a * 10 ^ l.length + parseDec l
  | [], a => by simp [parseDec]
  | ch :: l, a => by
    rw [List.foldl_cons, foldl_parse_gen l (a * 10 + (ch.toNat - 48))]
    have h2 : parseDec (ch :: l) = (ch.toNat - 48) * 10 ^ l.length + parseDec l := by
      show List.foldl _ (0 * 10 + (ch.toNat - 48)) l = _
      rw [foldl_parse_gen l _]
      rw [Nat.zero_mul, Nat.zero_add]
    rw [h2, List.length_cons]
    ring

theorem parseDec_append (l₁ l₂ : Str) :
    parseDec (l₁ ++ l₂) = parseDec l₁ * 10 ^ l₂.length + parseDec l₂ := by
  unfold parseDec
  rw [List.foldl_append]
  exact foldl_parse_gen l₂ _

theorem parseDec_decStrAux : ∀ (f n : Nat), n < 10 ^ f → parseDec (decStrAux f n) = n
  | 0, n, h => by
    simp only [pow_zero, Nat.lt_one_iff] at h
    subst h
    rfl
  | f + 1, n, h => by
    simp only [decStrAux]
    split
    · next h10 =>
      have ht := toNat_digCh n h10
      show (0 * 10 + ((digCh n).toNat - 48)) = n
      omega
    · next h10 =>
      rw [parseDec_append]
      have hd : n / 10 < 10 ^ f := by
        rw [Nat.div_lt_iff_lt_mul (by omega)]
        have hp : 10 ^ (f + 1) = 10 ^ f * 10 := by ring
        omega
      rw [parseDec_decStrAux f (n / 10) hd]
      have hm := toNat_digCh (n % 10) (Nat.mod_lt n (by omega))
      have hp : parseDec [digCh (n % 10)] = n % 10 := by
        show (0 * 10 + ((digCh (n % 10)).toNat - 48)) = n % 10
        omega
      rw [hp, List.length_singleton, pow_one]
      omega

theorem parseDec_decStr (n : Nat) : parseDec (decStr n) = n := by
  refine parseDec_decStrAux (n + 1) n ?_
  have h1 : n < 2 ^ n := Nat.lt_two_pow n
  have h2 : 2 ^ n ≤ 10 ^ n := Nat.pow_le_pow_left (by omega) n
  have h3 : 10 ^ n < 10 ^ (n + 1) := Nat.pow_lt_pow_right (by omega) (by omega)
  omega

theorem decStrAux_length_le : ∀ (f n k : Nat), n < 10 ^ k → 1 ≤ k →
    (decStrAux f n).length ≤ k
  | 0, n, k, _, _ => by simp [decStrAux]
  | f + 1, n, k, h, hk => by
    simp only [decStrAux]
    split
    · next h10 => simpa using hk
    · next h10 =>
      rw [List.length_append]
      have hk2 : 2 ≤ k := by
        by_contra hcon
        have hk1 : k = 1 := by omega
        subst hk1
        rw [pow_one] at h
        exact h10 h
      have hfk : 10 ^ (k - 1) * 10 = 10 ^ k := by
        rw [← pow_succ]
        congr 1
        omega
      have hd : n / 10 < 10 ^ (k - 1) := by
        rw [Nat.div_lt_iff_lt_mul (by omega)]
        omega
      have hrec := decStrAux_length_le f (n / 10) (k - 1) hd (by omega)
      have h1 : ([digCh (n % 10)] : Str).length = 1 := rfl
      omega

theorem decStr_length_le (n k : Nat) (h : n < 10 ^ k) (hk : 1 ≤ k) :
    (decStr n).length ≤ k :=
  decStrAux_length_le (n + 1) n k h hk

theorem replicate_append_one : ∀ (j : Nat) (v : α),
    List.replicate j v ++ [v] = List.replicate (j + 1) v
  | 0, v => rfl
  | j + 1, v => by
    rw [List.replicate_succ, List.cons_append, replicate_append_one j v, ← List.replicate_succ]

theorem decStrAux_pow10 : ∀ (k f : Nat), 10 ^ k < 10 ^ f →
    decStrAux f (10 ^ k) = '1' :: List.replicate k '0'
  | k, 0, h => absurd h (by simp)
  | 0, f + 1, _ => by
    simp only [pow_zero, decStrAux, if_pos (by omega : (1 : Nat) < 10)]
    decide
  | k + 1, f + 1, h => by
    have h10 : ¬ (10 ^ (k + 1) < 10) := by
      have hle : (10 : Nat) ^ 1 ≤ 10 ^ (k + 1) := Nat.pow_le_pow_right (by omega) (by omega)
      rw [pow_one] at hle
      omega
    simp only [decStrAux, if_neg h10]
    have hdiv : 10 ^ (k + 1) / 10 = 10 ^ k := by
      rw [pow_succ]
      exact Nat.mul_div_cancel _ (by omega)
    have hmod : 10 ^ (k + 1) % 10 = 0 := by
      rw [pow_succ]
      exact Nat.mul_mod_left _ _
    rw [hdiv, hmod]
    have hlt : 10 ^ k < 10 ^ f := by
      have hkf : k + 1 < f + 1 := (Nat.pow_lt_pow_iff_right (by omega)).mp h
      exact Nat.pow_lt_pow_right (by omega) (by omega)
    rw [decStrAux_pow10 k f hlt]
    rw [show digCh 0 = '0' from by decide]
    rw [List.cons_append, replicate_append_one]

theorem decStr_pow10 (k : Nat) : decStr (10 ^ k) = '1' :: List.replicate k '0' := by
  apply decStrAux_pow10
  have h1 : k < 10 ^ k := Nat.lt_pow_self (by omega) k
  exact Nat.pow_lt_pow_right (by omega) (by omega)

theorem parseDec_replicate_zero : ∀ k : Nat, parseDec (List.replicate k '0') = 0
  | 0 => rfl
  | k + 1 => by
    rw [List.replicate_succ]
    show List.foldl _ (0 * 10 + (('0').toNat - 48)) (List.replicate k '0') = 0
    rw [show (0 * 10 + (('0').toNat - 48)) = 0 from by decide]
    exact parseDec_replicate_zero k

theorem parseDec_one_zeros (k : Nat) : parseDec ('1' :: List.replicate k '0') = 10 ^ k := by
  rw [show ('1' :: List.replicate k '0') = ['1'] ++ List.replicate k '0' from rfl]
  rw [parseDec_append, parseDec_replicate_zero, List.length_replicate]
  rw [show parseDec ['1'] = 1 from by decide]
  omega

/-! ## takeWhile / dropWhile helpers -/

theorem takeWhile_append_all (p : Char → Bool) (l₁ l₂ : Str)
    (h : ∀ x ∈ l₁, p x = true) : (l₁ ++ l₂).takeWhile p = l₁ ++ l₂.takeWhile p := by
  induction l₁ with
  | nil => simp
  | cons x l ih =>
    have hx : p x = true := h x (List.mem_cons_self x l)
    rw [List.cons_append, List.takeWhile_cons, if_pos hx,
      ih (fun y hy => h y (List.mem_cons_of_mem x hy)), List.cons_append]

theorem takeWhile_cons_neg (p : Char → Bool) (x : Char) (l : Str) (h : p x = false) :
    (x :: l).takeWhile p = [] := by
  rw [List.takeWhile_cons, if_neg (by simp [h])]

theorem dropWhile_append_all (p : Char → Bool) (l₁ l₂ : Str)
    (h : ∀ x ∈ l₁, p x = true) : (l₁ ++ l₂).dropWhile p = l₂.dropWhile p := by
  induction l₁ with
  | nil => simp
  | cons x l ih =>
    have hx : p x = true := h x (List.mem_cons_self x l)
    rw [List.cons_append, List.dropWhile_cons, if_pos hx,
      ih (fun y hy => h y (List.mem_cons_of_mem x hy))]

theorem dropWhile_cons_neg (p : Char → Bool) (x : Char) (l : Str) (h : p x = false) :
    (x :: l).dropWhile p = x :: l := by
  rw [List.dropWhile_cons, if_neg (by simp [h])]

/-! ## C1: the count shown at the start of a summary line -/

theorem report_value_fst (rep : α → Str) (vs : List α) :
    (Stats.report_value rep vs).1
      = truncateSummary (decStr vs.length ++ ' ' :: pyListRepr rep vs) := rfl

theorem report_value_snd (rep : α → Str) (vs : List α) :
    (Stats.report_value rep vs).2 = vs.length := rfl

theorem shownCount_trunc (n : Nat) (rest : Str)
    (h : (decStr n).length ≤ report_value_limit) :
    shownCount (truncateSummary (decStr n ++ ' ' :: rest)) = n := by
  have hdig := isDig_decStr n
  have hsp : isDig ' ' = false := by decide
  have hdot : isDig '.' = false := by decide
  by_cases hlen : (decStr n ++ ' ' :: rest).length ≤ report_value_limit
  · rw [truncateSummary_of_le _ hlen]
    unfold shownCount
    rw [takeWhile_append_all isDig _ _ hdig, takeWhile_cons_neg _ _ _ hsp, List.append_nil]
    exact parseDec_decStr n
  · rw [truncateSummary_of_gt _ (by omega)]
    rw [List.take_append_eq_append_take, List.take_of_length_le h]
    by_cases hq : (decStr n).length = report_value_limit
    · rw [show report_value_limit - (decStr n).length = 0 from by omega]
      rw [List.take_zero, List.append_nil]
      unfold shownCount
      rw [takeWhile_append_all isDig _ _ hdig]
      rw [show ("...".toList) = '.' :: ("..".toList) from rfl]
      rw [takeWhile_cons_neg _ _ _ hdot, List.append_nil]
      exact parseDec_decStr n
    · rw [show report_value_limit - (decStr n).length
          = (report_value_limit - (decStr n).length - 1) + 1 from by omega]
      rw [List.take_succ_cons]
      unfold shownCount
      rw [List.append_assoc]
      rw [show (' ' :: List.take (report_value_limit - (decStr n).length - 1) rest)
            ++ ("...".toList)
          = ' ' :: (List.take (report_value_limit - (decStr n).length - 1) rest
            ++ ("...".toList)) from rfl]
      rw [takeWhile_append_all isDig _ _ hdig, takeWhile_cons_neg _ _ _ hsp, List.append_nil]
      exact parseDec_decStr n

theorem entry_of_mem_sorted (rep : α → Str) (calls : List (Str × α)) (obt : Bool)
    (c s : Str) (k : Nat)
    (h : (c, s, k) ∈ sortEntries obt (toEntries rep (runAdds calls))) :
    Stats.report_value rep (valuesOf calls c) = (s, k) := by
  have hperm : List.Perm (sortEntries obt (toEntries rep (runAdds calls)))
      (toEntries rep (runAdds calls)) := by
    cases obt
    · exact sortByCount_perm _
    · exact sortByTitle_perm _
  have hmem : (c, s, k) ∈ toEntries rep (runAdds calls) := hperm.mem_iff.mp h
  obtain ⟨e, he, heq⟩ := List.mem_map.mp hmem
  have hc : e.1 = c := congrArg Prod.fst heq
  have hv : Stats.report_value rep e.2 = (s, k) := congrArg Prod.snd heq
  have hlk : lookupStore (runAdds calls) c = some e.2 := by
    refine lookup_eq_of_mem _ _ _ (runAdds_keys_nodup calls) ?_
    rw [← hc]
    exact he
  rw [runAdds_lookup] at hlk
  split at hlk
  · cases hlk
  · have he2 : e.2 = valuesOf calls c := by
      injection hlk with hh
      exact hh.symm
    rw [← he2]
    exact hv

/-- C1 (amended): for every sequence of `add` calls and every category
`c` present in the store, as long as fewer than `10^150` `add` calls were
made with category `c` (so that the decimal digits of the count fit
within the 150-character summary truncation limit), the count shown at
the start of `c`'s summary line equals the number of `add` calls made
with exactly category `c`. -/
theorem c1_reported_count_eq_adds (α : Type) (rep : α → Str) (calls : List (Str × α))
    (obt : Bool) (c s : Str) (k : Nat)
    (hmem : (c, s, k) ∈ sortEntries obt (toEntries rep (runAdds calls)))
    (hsmall : countOf calls c < 10 ^ 150) :
    shownCount s = countOf calls c ∧ k = countOf calls c := by
  have hrv := entry_of_mem_sorted rep calls obt c s k hmem
  have hn : (valuesOf calls c).length = countOf calls c := valuesOf_length calls c
  have hs : s = truncateSummary (decStr (countOf calls c)
      ++ ' ' :: pyListRepr rep (valuesOf calls c)) := by
    have : s = (Stats.report_value rep (valuesOf calls c)).1 := by rw [hrv]
    rw [this]
    show truncateSummary (decStr (valuesOf calls c).length
      ++ ' ' :: pyListRepr rep (valuesOf calls c)) = _
    rw [hn]
  constructor
  · rw [hs]
    exact shownCount_trunc (countOf calls c) _
      (decStr_length_le _ 150 hsmall (by omega))
  · have : k = (Stats.report_value rep (valuesOf calls c)).2 := by rw [hrv]
    rw [this]
    show (valuesOf calls c).length = countOf calls c
    exact hn

/-! ## C1 counterexample: a count too wide for the truncation limit -/

theorem runAdds_replicate_aux (c : Str) (v : α) :
    ∀ (m j : Nat), (List.replicate m (c, v)).foldl (fun d cv => addValue d cv.1 cv.2)
        [(c, List.replicate j v)]
      = [(c, List.replicate (j + m) v)] := by
  intro m
  induction m with
  | zero => intro j; simp
  | succ m ih =>
    intro j
    rw [List.replicate_succ, List.foldl_cons]
    have hstep : addValue [(c, List.replicate j v)] c v = [(c, List.replicate (j + 1) v)] := by
      have hinit : init_category [(c, List.replicate j v)] c = [(c, List.replicate j v)] := by
        simp [init_category, containsKey, lookupStore]
      unfold addValue
      rw [hinit, appendValue_cons, if_pos rfl]
      show [(c, List.replicate j v ++ [v])] = [(c, List.replicate (j + 1) v)]
      rw [replicate_append_one]
    rw [hstep, ih (j + 1)]
    rw [show j + 1 + m = j + (m + 1) from by omega]

theorem runAdds_replicate (m : Nat) (c : Str) (v : α) (hm : 0 < m) :
    runAdds (List.replicate m (c, v)) = [(c, List.replicate m v)] := by
  obtain ⟨m', rfl⟩ : ∃ m', m = m' + 1 := ⟨m - 1, by omega⟩
  unfold runAdds
  rw [List.replicate_succ, List.foldl_cons]
  have h0 : addValue ([] : Store α) c v = [(c, List.replicate 1 v)] := by
    unfold addValue
    rw [show init_category ([] : Store α) c = [(c, [])] from rfl]
    rw [appendValue_cons, if_pos rfl]
    show [(c, ([] : List α) ++ [v])] = _
    rw [List.nil_append]
    rfl
  rw [h0, runAdds_replicate_aux c v m' 1]
  rw [show 1 + m' = m' + 1 from by omega]

theorem valuesOf_replicate (m : Nat) (c : Str) (v : α) :
    valuesOf (List.replicate m (c, v)) c = List.replicate m v := by
  induction m with
  | zero => rfl
  | succ m ih =>
    rw [List.replicate_succ]
    show ((((c, v) : Str × α) :: List.replicate m (c, v)).filter
      (fun cv => decide (cv.1 = c))).map Prod.snd = _
    rw [List.filter_cons, if_pos (by simp)]
    rw [List.map_cons]
    rw [show ((List.replicate m (c, v)).filter (fun cv => decide (cv.1 = c))).map Prod.snd
        = valuesOf (List.replicate m (c, v)) c from rfl]
    rw [ih, List.replicate_succ]

/-- C1 counterexample: after `10^150` `add` calls with category `"c"`,
the count of add calls is `10^150`, but the truncated summary line starts
with the digits of `10^149`: the shown count differs from the true count,
refuting the claim as universally stated. -/
theorem c1_counterexample_truncated_count :
    countOf (List.replicate (10 ^ 150) ((("c").toList : Str), ("v").toList)) (("c").toList)
        = 10 ^ 150
    ∧ sortEntries false (toEntries pyStrRepr
          (runAdds (List.replicate (10 ^ 150) ((("c").toList : Str), ("v").toList))))
        = [((("c").toList : Str),
            Stats.report_value pyStrRepr (List.replicate (10 ^ 150) (("v").toList)))]
    ∧ shownCount (Stats.report_value pyStrRepr
          (List.replicate (10 ^ 150) (("v").toList))).1 = 10 ^ 149
    ∧ (10 : Nat) ^ 149 ≠ 10 ^ 150 := by
  have hpos : 0 < (10 : Nat) ^ 150 := Nat.pos_pow_of_pos 150 (by omega)
  refine ⟨?_, ?_, ?_, ?_⟩
  · rw [← valuesOf_length, valuesOf_replicate, List.length_replicate]
  · rw [runAdds_replicate _ _ _ hpos]
    rfl
  · rw [report_value_fst]
    rw [List.length_replicate, decStr_pow10]
    have hlen : ('1' :: List.replicate 150 '0').length = 151 := by
      rw [List.length_cons, List.length_replicate]
    rw [truncateSummary_of_gt _ (by
      rw [List.length_append, hlen]
      unfold report_value_limit
      omega)]
    rw [List.take_append_eq_append_take, hlen]
    rw [show report_value_limit - 151 = 0 from by unfold report_value_limit; omega]
    rw [List.take_zero, List.append_nil]
    rw [show report_value_limit = 149 + 1 from by unfold report_value_limit; omega]
    rw [List.take_succ_cons, List.take_replicate]
    rw [show min 149 150 = 149 from by omega]
    unfold shownCount
    have hdig : ∀ ch ∈ ('1' :: List.replicate 149 '0'), isDig ch = true := by
      intro ch hch
      rcases List.mem_cons.mp hch with h | h
      · subst h
        decide
      · rw [List.eq_of_mem_replicate h]
        decide
    rw [takeWhile_append_all isDig _ _ hdig]
    rw [show ("...".toList) = '.' :: ("..".toList) from rfl]
    rw [takeWhile_cons_neg _ _ _ (by decide), List.append_nil]
    exact parseDec_one_zeros 149
  · exact Nat.ne_of_lt (Nat.pow_lt_pow_right (by omega) (by omega))

/-! ## C3: the total shown in a Sum-variant summary line -/

theorem intStr_of_nonneg (s : Int) (h : 0 ≤ s) : intStr s = decStr s.natAbs := by
  unfold intStr
  rw [if_neg (by omega)]

theorem intStr_of_neg (s : Int) (h : s < 0) : intStr s = '-' :: decStr s.natAbs := by
  unfold intStr
  rw [if_pos h]

theorem takeWhile_all (p : Char → Bool) : ∀ l : Str, (∀ x ∈ l, p x = true) → l.takeWhile p = l
  | [], _ => rfl
  | x :: l, h => by
    rw [List.takeWhile_cons, if_pos (h x (List.mem_cons_self x l)),
      takeWhile_all p l (fun y hy => h y (List.mem_cons_of_mem x hy))]

theorem intTok_cons_of_ne (c : Char) (l : Str) (h : ¬ c = '-') :
    intTok (c :: l) = (c :: l).takeWhile isDig := by
  unfold intTok
  split
  · next t ht =>
    injection ht with h1 h2
    exact absurd h1 h
  · rfl

theorem parseInt_cons_of_ne (c : Char) (l : Str) (h : ¬ c = '-') :
    parseInt (c :: l) = (parseDec (c :: l) : Int) := by
  unfold parseInt
  split
  · next t ht =>
    injection ht with h1 h2
    exact absurd h1 h
  · rfl

theorem head_decStr_not_minus (n : Nat) (d0 : Char) (ds : Str)
    (h : decStr n = d0 :: ds) : ¬ d0 = '-' := by
  intro hd
  have hdig : isDig d0 = true := isDig_decStr n d0 (by rw [h]; exact List.mem_cons_self d0 ds)
  rw [hd] at hdig
  simp [isDig] at hdig

theorem parseInt_intTok (s : Int) (t : Str)
    (ht : t = [] ∨ ∃ c t2, t = c :: t2 ∧ isDig c = false) :
    parseInt (intTok (intStr s ++ t)) = s := by
  have hdig := isDig_decStr s.natAbs
  have htw : (decStr s.natAbs ++ t).takeWhile isDig = decStr s.natAbs := by
    rcases ht with h | ⟨c, t2, h, hc⟩
    · subst h
      rw [List.append_nil]
      exact takeWhile_all isDig _ hdig
    · subst h
      rw [takeWhile_append_all isDig _ _ hdig, takeWhile_cons_neg _ _ _ hc, List.append_nil]
  by_cases hs : 0 ≤ s
  · rw [intStr_of_nonneg s hs]
    obtain ⟨d0, ds, hds⟩ := List.exists_cons_of_ne_nil (decStr_ne_nil s.natAbs)
    have hd0 : ¬ d0 = '-' := head_decStr_not_minus s.natAbs d0 ds hds
    rw [hds, List.cons_append, intTok_cons_of_ne _ _ hd0, ← List.cons_append, ← hds, htw]
    rw [hds, parseInt_cons_of_ne _ _ hd0, ← hds, parseDec_decStr]
    exact Int.natAbs_of_nonneg hs
  · rw [intStr_of_neg s (by omega), List.cons_append]
    rw [show intTok ('-' :: (decStr s.natAbs ++ t))
        = '-' :: (decStr s.natAbs ++ t).takeWhile isDig from rfl]
    rw [htw]
    rw [show parseInt ('-' :: decStr s.natAbs) = -(parseDec (decStr s.natAbs) : Int) from rfl]
    rw [parseDec_decStr]
    omega

theorem shownTotal_trunc (n : Nat) (s : Int) (rest : Str)
    (hfit : (decStr n).length + 7 + (intStr s).length ≤ report_value_limit) :
    shownTotal (truncateSummary
      (decStr n ++ (" total=".toList) ++ intStr s ++ ' ' :: rest)) = s := by
  have hdigA := isDig_decStr n
  have hspace : isDig ' ' = false := by decide
  have hdot : isDig '.' = false := by decide
  have key : ∀ T : Str, (T = [] ∨ ∃ c t2, T = c :: t2 ∧ isDig c = false) →
      shownTotal ((decStr n ++ (" total=".toList) ++ intStr s) ++ T) = s := by
    intro T hT
    unfold shownTotal
    rw [show (decStr n ++ (" total=".toList) ++ intStr s) ++ T
        = decStr n ++ ((" total=".toList) ++ (intStr s ++ T)) from by
      simp [List.append_assoc]]
    rw [dropWhile_append_all isDig _ _ hdigA]
    rw [show (" total=".toList) ++ (intStr s ++ T)
        = ' ' :: (("total=".toList) ++ (intStr s ++ T)) from rfl]
    rw [dropWhile_cons_neg _ _ _ hspace]
    rw [show ' ' :: (("total=".toList) ++ (intStr s ++ T))
        = (" total=".toList) ++ (intStr s ++ T) from rfl]
    rw [show (7 : Nat) = (" total=".toList).length from rfl]
    rw [List.drop_left]
    exact parseInt_intTok s T hT
  have hlenAMB : (decStr n ++ (" total=".toList) ++ intStr s).length ≤ report_value_limit := by
    rw [List.length_append, List.length_append]
    rw [show ((" total=".toList) : Str).length = 7 from rfl]
    omega
  by_cases hlen :
      ((decStr n ++ (" total=".toList) ++ intStr s) ++ ' ' :: rest).length ≤ report_value_limit
  · rw [truncateSummary_of_le _ hlen]
    exact key (' ' :: rest) (Or.inr ⟨' ', rest, rfl, hspace⟩)
  · rw [truncateSummary_of_gt _ (by omega)]
    rw [List.take_append_eq_append_take]
    rw [List.take_of_length_le hlenAMB]
    rw [List.append_assoc]
    apply key
    rcases Nat.eq_zero_or_pos
        (report_value_limit - (decStr n ++ (" total=".toList) ++ intStr s).length) with hk | hk
    · rw [hk, List.take_zero, List.nil_append]
      exact Or.inr ⟨'.', ("..".toList), rfl, hdot⟩
    · obtain ⟨k2, hk2⟩ : ∃ k2,
          report_value_limit - (decStr n ++ (" total=".toList) ++ intStr s).length = k2 + 1 :=
        ⟨report_value_limit - (decStr n ++ (" total=".toList) ++ intStr s).length - 1,
          by omega⟩
      rw [hk2, List.take_succ_cons]
      exact Or.inr ⟨' ', List.take k2 rest ++ ("...".toList), rfl, hspace⟩

theorem foldl_pyAddStep_some : ∀ (l : List PyVal) (a t : Int),
    l.foldl pyAddStep (some a) = some t → t = a + sumInts l
  | [], a, t, h => by
    injection h with h
    simp [sumInts]
    omega
  | v :: l, a, t, h => by
    rw [List.foldl_cons] at h
    cases v with
    | num i =>
      rw [show pyAddStep (some a) (PyVal.num i) = some (a + i) from rfl] at h
      have hrec := foldl_pyAddStep_some l (a + i) t h
      simp only [sumInts, PyVal.toIntD, List.map_cons, List.sum_cons] at hrec ⊢
      omega
    | obj s2 =>
      rw [show pyAddStep (some a) (PyVal.obj s2) = none from rfl] at h
      rw [foldl_pyAddStep_none l] at h
      cases h

theorem pySum_eq_sumInts (l : List PyVal) (t : Int) (h : pySum l = some t) : t = sumInts l := by
  have hh := foldl_pyAddStep_some l 0 t h
  omega

theorem sum_report_value_some (vs : List (Str × PyVal)) (t : Int)
    (h : pySum (vs.map Prod.snd) = some t) :
    StatsWithSum.report_value vs = some (truncateSummary (decStr vs.length
      ++ (" total=".toList) ++ intStr t ++ ' ' :: pyListRepr pairRepr vs), vs.length) := by
  unfold StatsWithSum.report_value
  rw [h]

theorem sum_entry_of_mem_sorted (calls : List (Str × (Str × PyVal))) (obt : Bool)
    (es : List Entry) (hes : sumEntries (runAdds calls) = some es)
    (c s : Str) (k : Nat) (hmem : (c, s, k) ∈ sortEntries obt es) :
    StatsWithSum.report_value (valuesOf calls c) = some (s, k) := by
  have hperm : List.Perm (sortEntries obt es) es := by
    cases obt
    · exact sortByCount_perm _
    · exact sortByTitle_perm _
  have hmem2 : (c, s, k) ∈ es := hperm.mem_iff.mp hmem
  obtain ⟨e, he, hfe⟩ := mapO_mem_of_some _ _ es hes _ hmem2
  cases hrv : StatsWithSum.report_value e.2 with
  | none => rw [hrv] at hfe; cases hfe
  | some v =>
    rw [hrv] at hfe
    have hfe2 : (e.1, v) = (c, s, k) := by
      injection hfe with hh
    have hc : e.1 = c := congrArg Prod.fst hfe2
    have hv : v = (s, k) := congrArg Prod.snd hfe2
    have hlk : lookupStore (runAdds calls) c = some e.2 := by
      refine lookup_eq_of_mem _ _ _ (runAdds_keys_nodup calls) ?_
      rw [← hc]
      exact he
    rw [runAdds_lookup] at hlk
    split at hlk
    · cases hlk
    · injection hlk with hh
      rw [hh, hrv, hv]

/-- C3 (amended): for every sequence of Sum-variant `add` calls whose
report succeeds (all numeric components summable) and every category line
in the sorted entries, as long as the prefix of the built summary through
the total (count digits, `' total='`, total digits) fits within the
150-character truncation limit, the value printed after `total=` equals
the exact arithmetic sum of the numeric components added under that
category. -/
theorem c3_reported_total_eq_sum (calls : List (Str × (Str × PyVal))) (obt : Bool)
    (es : List Entry) (c s : Str) (k : Nat)
    (hes : sumEntries (runAdds calls) = some es)
    (hmem : (c, s, k) ∈ sortEntries obt es)
    (hfit : (decStr (valuesOf calls c).length).length + 7
        + (intStr (sumInts ((valuesOf calls c).map Prod.snd))).length ≤ report_value_limit) :
    shownTotal s = sumInts ((valuesOf calls c).map Prod.snd) := by
  have hrv := sum_entry_of_mem_sorted calls obt es hes c s k hmem
  cases hps : pySum ((valuesOf calls c).map Prod.snd) with
  | none =>
    rw [show StatsWithSum.report_value (valuesOf calls c) = none from by
      unfold StatsWithSum.report_value
      rw [hps]] at hrv
    cases hrv
  | some t =>
    have ht : t = sumInts ((valuesOf calls c).map Prod.snd) := pySum_eq_sumInts _ t hps
    have h2 := sum_report_value_some (valuesOf calls c) t hps
    rw [h2] at hrv
    have hrv2 : (truncateSummary (decStr (valuesOf calls c).length
        ++ (" total=".toList) ++ intStr t
        ++ ' ' :: pyListRepr pairRepr (valuesOf calls c)), (valuesOf calls c).length)
        = ((s, k) : Str × Nat) := by
      injection hrv with hh
    have hs : s = truncateSummary (decStr (valuesOf calls c).length
        ++ (" total=".toList) ++ intStr t
        ++ ' ' :: pyListRepr pairRepr (valuesOf calls c)) :=
      (congrArg Prod.fst hrv2).symm
    rw [hs]
    rw [shownTotal_trunc (valuesOf calls c).length t _ (by rw [ht]; exact hfit)]
    exact ht

theorem runAdds_single (c : Str) (v : α) : runAdds [(c, v)] = [(c, [v])] := by
  unfold runAdds
  rw [List.foldl_cons, List.foldl_nil]
  unfold addValue
  rw [show init_category ([] : Store α) c = [(c, [])] from rfl]
  rw [appendValue_cons, if_pos rfl]
  show [(c, ([] : List α) ++ [v])] = _
  rw [List.nil_append]

/-- C3 counterexample: one Sum-variant `add` call with the exact integer
`10^200` makes the built summary exceed the truncation limit inside the
total's digits: the line prints the digits of `10^141` after `total=`
although the arithmetic sum of the recorded numeric components is
`10^200`, refuting the claim as universally stated. -/
theorem c3_counterexample_truncated_total :
    runAdds [((("cat").toList : Str), ((("id").toList : Str), PyVal.num (10 ^ 200)))]
        = [((("cat").toList : Str), [((("id").toList : Str), PyVal.num (10 ^ 200))])]
    ∧ sumInts ([((("id").toList : Str), PyVal.num (10 ^ 200))].map Prod.snd) = 10 ^ 200
    ∧ (∃ s : Str,
        StatsWithSum.report_value [((("id").toList : Str), PyVal.num (10 ^ 200))]
          = some (s, 1)
        ∧ shownTotal s = 10 ^ 141)
    ∧ ((10 : Int) ^ 141 ≠ 10 ^ 200) := by
  refine ⟨runAdds_single _ _, by simp [sumInts, PyVal.toIntD], ?_, ?_⟩
  · have hps : pySum ([((("id").toList : Str), PyVal.num (10 ^ 200))].map Prod.snd)
        = some (10 ^ 200) := by
      show some ((0 : Int) + 10 ^ 200) = some (10 ^ 200)
      rw [Int.zero_add]
    have h2 := sum_report_value_some _ _ hps
    refine ⟨truncateSummary (decStr 1 ++ (" total=".toList) ++ intStr (10 ^ 200)
        ++ ' ' :: pyListRepr pairRepr [((("id").toList : Str), PyVal.num (10 ^ 200))]),
      ?_, ?_⟩
    · rw [h2]
      rfl
    · set R := pyListRepr pairRepr [((("id").toList : Str), PyVal.num (10 ^ 200))]
      have hA : decStr 1 = ['1'] := by decide
      have hB : intStr ((10 : Int) ^ 200) = '1' :: List.replicate 200 '0' := by
        rw [intStr_of_nonneg _ (by positivity)]
        rw [show ((10 : Int) ^ 200).natAbs = 10 ^ 200 from by
          rw [Int.natAbs_pow]
          rfl]
        exact decStr_pow10 200
      rw [hA, hB]
      have hM : ((" total=".toList) : Str).length = 7 := rfl
      have hBlen : (('1' :: List.replicate 200 '0') : Str).length = 201 := by
        rw [List.length_cons, List.length_replicate]
      rw [truncateSummary_of_gt _ (by
        rw [List.length_append, List.length_append, List.length_append, hM, hBlen]
        simp only [List.length_cons, List.length_nil]
        unfold report_value_limit
        omega)]
      rw [List.take_append_eq_append_take]
      have hXlen : ((['1'] : Str) ++ (" total=".toList)
          ++ ('1' :: List.replicate 200 '0')).length = 209 := by
        rw [List.length_append, List.length_append, hM, hBlen, List.length_singleton]
      rw [hXlen]
      rw [show report_value_limit - 209 = 0 from by unfold report_value_limit; omega]
      rw [List.take_zero, List.append_nil]
      rw [List.take_append_eq_append_take]
      have hAMlen : ((['1'] : Str) ++ (" total=".toList)).length = 8 := by
        rw [List.length_append, hM, List.length_singleton]
      rw [List.take_of_length_le (by rw [hAMlen]; unfold report_value_limit; omega)]
      rw [hAMlen]
      rw [show report_value_limit - 8 = 141 + 1 from by unfold report_value_limit; omega]
      rw [List.take_succ_cons, List.take_replicate]
      rw [show min 141 200 = 141 from by omega]
      unfold shownTotal
      rw [show (((['1'] : Str) ++ (" total=".toList)) ++ ('1' :: List.replicate 141 '0'))
            ++ ("...".toList)
          = (['1'] : Str) ++ ((" total=".toList) ++ (('1' :: List.replicate 141 '0')
            ++ ("...".toList))) from by simp [List.append_assoc]]
      rw [dropWhile_append_all isDig _ _ (by
        intro ch hch
        rw [List.mem_singleton] at hch
        subst hch
        decide)]
      rw [show (" total=".toList) ++ (('1' :: List.replicate 141 '0') ++ ("...".toList))
          = ' ' :: (("total=".toList) ++ (('1' :: List.replicate 141 '0')
            ++ ("...".toList))) from rfl]
      rw [dropWhile_cons_neg _ _ _ (by decide)]
      rw [show ' ' :: (("total=".toList) ++ (('1' :: List.replicate 141 '0')
            ++ ("...".toList)))
          = (" total=".toList) ++ (('1' :: List.replicate 141 '0') ++ ("...".toList))
          from rfl]
      rw [show (7 : Nat) = ((" total=".toList) : Str).length from rfl]
      rw [List.drop_left]
      rw [show ('1' :: List.replicate 141 '0') ++ ("...".toList)
          = '1' :: (List.replicate 141 '0' ++ ("...".toList)) from rfl]
      rw [intTok_cons_of_ne _ _ (by decide)]
      rw [show ('1' :: (List.replicate 141 '0' ++ ("...".toList)))
          = ('1' :: List.replicate 141 '0') ++ ("...".toList) from rfl]
      rw [takeWhile_append_all isDig _ _ (by
        intro ch hch
        rcases List.mem_cons.mp hch with h | h
        · subst h
          decide
        · rw [List.eq_of_mem_replicate h]
          decide)]
      rw [show ("...".toList) = '.' :: ("..".toList) from rfl]
      rw [takeWhile_cons_neg _ _ _ (by decide), List.append_nil]
      rw [parseInt_cons_of_ne _ _ (by decide)]
      rw [parseDec_one_zeros]
      push_cast
  · intro heq
    have hn : (10 : Nat) ^ 141 ≠ 10 ^ 200 :=
      Nat.ne_of_lt (Nat.pow_lt_pow_right (by omega) (by omega))
    exact hn (by exact_mod_cast heq)

/-! ## Witnesses: the claim theorems applied at small concrete stores -/

/-- A small concrete call sequence used to instantiate hypotheses of the
claim theorems. -/
def sampleCalls : List (Str × Str) :=
  [((("a").toList : Str), ("x").toList), ((("b").toList : Str), ("y").toList)]

theorem c1_witness :
    shownCount (Stats.report_value pyStrRepr [("x").toList]).1
        = countOf [((("a").toList : Str), ("x").toList)] (("a").toList)
    ∧ (Stats.report_value pyStrRepr [("x").toList]).2
        = countOf [((("a").toList : Str), ("x").toList)] (("a").toList) :=
  c1_reported_count_eq_adds Str pyStrRepr [((("a").toList : Str), ("x").toList)] false
    (("a").toList) (Stats.report_value pyStrRepr [("x").toList]).1
    (Stats.report_value pyStrRepr [("x").toList]).2
    (by decide) (by decide)

theorem c3_witness :
    shownTotal (truncateSummary (decStr 1 ++ (" total=".toList) ++ intStr 3
        ++ ' ' :: pyListRepr pairRepr [((("id").toList : Str), PyVal.num 3)]))
      = sumInts ((valuesOf [((("cat").toList : Str), ((("id").toList : Str), PyVal.num 3))]
          (("cat").toList)).map Prod.snd) :=
  c3_reported_total_eq_sum
    [((("cat").toList : Str), ((("id").toList : Str), PyVal.num 3))] false
    [((("cat").toList : Str), truncateSummary (decStr 1 ++ (" total=".toList) ++ intStr 3
        ++ ' ' :: pyListRepr pairRepr [((("id").toList : Str), PyVal.num 3)]), 1)]
    (("cat").toList)
    (truncateSummary (decStr 1 ++ (" total=".toList) ++ intStr 3
        ++ ' ' :: pyListRepr pairRepr [((("id").toList : Str), PyVal.num 3)]))
    1 (by decide) (by decide) (by decide)

theorem c4_witness :
    ((sortEntries false (toEntries pyStrRepr sampleStore)).get ⟨1, by decide⟩).2.2
      ≤ ((sortEntries false (toEntries pyStrRepr sampleStore)).get ⟨0, by decide⟩).2.2 :=
  (c4_descending_count_sort Str pyStrRepr sampleStore).1 0 1
    ((sortEntries false (toEntries pyStrRepr sampleStore)).get ⟨0, by decide⟩)
    ((sortEntries false (toEntries pyStrRepr sampleStore)).get ⟨1, by decide⟩)
    (by decide) (by decide) (by decide)

theorem c5_witness :
    strLt
      (((sortEntries true (toEntries pyStrRepr (runAdds sampleCalls))).get
        ⟨0, by decide⟩).1)
      (((sortEntries true (toEntries pyStrRepr (runAdds sampleCalls))).get
        ⟨1, by decide⟩).1) = true :=
  c5_title_sort_lexicographic Str pyStrRepr sampleCalls 0 1
    ((sortEntries true (toEntries pyStrRepr (runAdds sampleCalls))).get ⟨0, by decide⟩)
    ((sortEntries true (toEntries pyStrRepr (runAdds sampleCalls))).get ⟨1, by decide⟩)
    (by decide) (by decide) (by decide)

theorem c6_witness :
    (Stats.report_value pyStrRepr [("x").toList]).1
      = decStr ([("x").toList] : List Str).length
          ++ ' ' :: pyListRepr pyStrRepr [("x").toList] :=
  (c6_summary_truncation Str pyStrRepr [("x").toList]).2.1 (by decide)

theorem c8_witness :
    [("x").toList] = valuesOf [((("a").toList : Str), ("x").toList)] (("a").toList) :=
  (c8_lazy_independent_accumulators Str [((("a").toList : Str), ("x").toList)]
    (("a").toList)).2.1 [("x").toList] (by decide)

theorem c9_witness :
    StatsWithSum.report_value [((("i").toList : Str), PyVal.obj (("o").toList))] = none :=
  (c9_failure_surfaces_at_report_time [] [] [] []).2.1
    [((("i").toList : Str), PyVal.obj (("o").toList))]
    ⟨((("i").toList : Str), PyVal.obj (("o").toList)), by decide, rfl⟩

end RunningStats
